import Mathlib

/-!
Verification of multibg-sway's buffer cache, draw contract, release
bookkeeping, wallpaper deduplication, output teardown, compositor event
bridging and the hyprland event-socket record framing, as a shallow
embedding of the Rust sources in `src/`.

Conventions of the embedding:
* A `Wallpaper` is identified by its `wl_buffer` id (a `Nat`); the shared
  `Cell<usize>` active-use counter living inside the `Rc<Wallpaper>` is
  modelled as an external map `active : Nat → Nat` keyed by that buffer id,
  so that sharing one wallpaper from several workspace entries shares one
  counter, exactly as the `Rc` does.
* Wayland protocol calls and log lines are modelled as effect traces.
* Bytes are modelled as `Nat` values.
-/

namespace Multibg

/-- Output transforms, `wl_output::Transform` (src/wayland.rs). Only
equality of transforms matters to the embedded code. -/
inductive Transform where
  | normal
  | r90
  | r180
  | r270
  | flipped
  | flipped90
  | flipped180
  | flipped270
deriving DecidableEq

/-- `Wallpaper` (src/wayland.rs, struct Wallpaper): the protocol buffer
object identity plus the dedup key fields. The `active_count : Cell<usize>`
is modelled externally, keyed by `wl_buffer`; the shm pool contents are
irrelevant to the claims. -/
structure Wallpaper where
  wl_buffer : Nat
  canon_path : String
  canon_modified : Nat
deriving DecidableEq

/-- `WorkspaceBackground` (src/wayland.rs). -/
structure WorkspaceBackground where
  workspace_name : String
  wallpaper : Wallpaper
deriving DecidableEq

/-- `BackgroundLayer` (src/wayland.rs), the per-output state. The
`layer : LayerSurface` handle and viewport are protocol handles with no
bearing on the claims and are elided. -/
structure BackgroundLayer where
  output_name : String
  width : Int
  height : Int
  configured : Bool
  workspace_backgrounds : List WorkspaceBackground
  current_workspace : Option String
  transform : Transform
deriving DecidableEq

instance : Inhabited BackgroundLayer :=
  ⟨⟨"", 0, 0, false, [], none, Transform.normal⟩⟩

/-- Observable actions of `BackgroundLayer::draw_workspace_bg` and of the
event-loop consumer: protocol calls and error log lines. -/
inductive DrawEffect where
  | errNotConfigured
  | errNoWallpaper
  | attach (wl_buffer : Nat)
  | damage
  | commit
  | errUnknownOutput
deriving DecidableEq

/-- `BackgroundLayer::draw_workspace_bg` (src/wayland.rs lines 677-727).
Returns the updated layer, the updated active-use counters and the trace
of protocol calls / error logs, in program order. -/
def draw_workspace_bg (layer : BackgroundLayer) (active : Nat → Nat)
    (workspace_name : String) :
    BackgroundLayer × (Nat → Nat) × List DrawEffect :=
  if layer.configured = false then
    (layer, active, [DrawEffect.errNotConfigured])
  else if layer.current_workspace == some workspace_name then
    (layer, active, [])
  else
    match (layer.workspace_backgrounds.find?
        (fun bg => bg.workspace_name == workspace_name)).orElse
        (fun _ => layer.workspace_backgrounds.find?
          (fun bg => bg.workspace_name == "_default")) with
    | none => (layer, active, [DrawEffect.errNoWallpaper])
    | some workspace_bg =>
      ({ layer with current_workspace := some workspace_name },
        Function.update active workspace_bg.wallpaper.wl_buffer
          (active workspace_bg.wallpaper.wl_buffer + 1),
        [DrawEffect.attach workspace_bg.wallpaper.wl_buffer,
          DrawEffect.damage, DrawEffect.commit])

/-- Number of `attach` calls in an effect trace. -/
def countAttaches (effects : List DrawEffect) : Nat :=
  effects.countP (fun e => match e with | DrawEffect.attach _ => true | _ => false)

/-- Number of `commit` calls in an effect trace. -/
def countCommits (effects : List DrawEffect) : Nat :=
  effects.countP (fun e => e == DrawEffect.commit)

/-- A sample layer with no wallpaper entries at all, used as concrete input. -/
def layerNoBgs : BackgroundLayer :=
  ⟨"eDP-1", 1920, 1080, true, [], none, Transform.normal⟩

/-- A sample layer holding wallpapers for workspace "1" and for "_default". -/
def layerWithDefault : BackgroundLayer :=
  ⟨"eDP-1", 1920, 1080, true,
    [⟨"1", ⟨10, "/w/1.png", 100⟩⟩, ⟨"_default", ⟨11, "/w/_default.png", 101⟩⟩],
    none, Transform.normal⟩

/-- C1: for a configured layer and a requested workspace name that differs
from the currently attached one, `draw_workspace_bg` resolves the name by
exact match on the workspace list, else by the `"_default"` entry, and when
neither exists it emits only the error log and leaves the layer, the
attached buffer and every active-use counter unchanged; when `"_default"`
exists it is the entry attached for an unknown name. -/
theorem C1_draw_resolution (layer : BackgroundLayer) (active : Nat → Nat)
    (workspace_name : String)
    (hconf : layer.configured = true)
    (hdiff : layer.current_workspace ≠ some workspace_name) :
    (∀ bg, layer.workspace_backgrounds.find?
        (fun b => b.workspace_name == workspace_name) = some bg →
      draw_workspace_bg layer active workspace_name =
        ({ layer with current_workspace := some workspace_name },
          Function.update active bg.wallpaper.wl_buffer
            (active bg.wallpaper.wl_buffer + 1),
          [DrawEffect.attach bg.wallpaper.wl_buffer,
            DrawEffect.damage, DrawEffect.commit])) ∧
    (layer.workspace_backgrounds.find?
        (fun b => b.workspace_name == workspace_name) = none →
      ∀ bg, layer.workspace_backgrounds.find?
          (fun b => b.workspace_name == "_default") = some bg →
        draw_workspace_bg layer active workspace_name =
          ({ layer with current_workspace := some workspace_name },
            Function.update active bg.wallpaper.wl_buffer
              (active bg.wallpaper.wl_buffer + 1),
            [DrawEffect.attach bg.wallpaper.wl_buffer,
              DrawEffect.damage, DrawEffect.commit])) ∧
    (layer.workspace_backgrounds.find?
        (fun b => b.workspace_name == workspace_name) = none →
      layer.workspace_backgrounds.find?
        (fun b => b.workspace_name == "_default") = none →
      draw_workspace_bg layer active workspace_name =
        (layer, active, [DrawEffect.errNoWallpaper])) := by
  have hbeq : (layer.current_workspace == some workspace_name) = false := by
    simpa using hdiff
  refine ⟨?_, ?_, ?_⟩
  · intro bg hfind
    simp [draw_workspace_bg, hconf, hbeq, hfind, Option.orElse]
  · intro hnone bg hdefault
    simp [draw_workspace_bg, hconf, hbeq, hnone, hdefault, Option.orElse]
  · intro hnone hdnone
    simp [draw_workspace_bg, hconf, hbeq, hnone, hdnone, Option.orElse]

/-- Witness for C1 at a concrete input: requesting the unknown name "5" on
a configured layer that has a `"_default"` entry attaches `"_default"`. -/
theorem C1_draw_resolution_witness :
    draw_workspace_bg layerWithDefault (fun _ => 0) "5" =
      ({ layerWithDefault with current_workspace := some "5" },
        Function.update (fun _ => 0) 11 1,
        [DrawEffect.attach 11, DrawEffect.damage, DrawEffect.commit]) := by
  have h := (C1_draw_resolution layerWithDefault (fun _ => 0) "5"
    (by decide) (by decide)).2.1 (by decide)
    ⟨"_default", ⟨11, "/w/_default.png", 101⟩⟩ (by decide)
  simpa using h

/-- C2 counterexample: on a configured layer with no wallpaper entries,
two consecutive draws with the same workspace name "1" perform zero
attaches and zero commits, not exactly one; the second call does not
return silently either, it emits the error log again. -/
theorem C2_counterexample :
    ¬(countAttaches ((draw_workspace_bg layerNoBgs (fun _ => 0) "1").2.2 ++
        (draw_workspace_bg (draw_workspace_bg layerNoBgs (fun _ => 0) "1").1
          (draw_workspace_bg layerNoBgs (fun _ => 0) "1").2.1 "1").2.2) = 1) ∧
    (draw_workspace_bg (draw_workspace_bg layerNoBgs (fun _ => 0) "1").1
        (draw_workspace_bg layerNoBgs (fun _ => 0) "1").2.1 "1").2.2 =
      [DrawEffect.errNoWallpaper] := by
  constructor
  · intro h
    have : countAttaches ((draw_workspace_bg layerNoBgs (fun _ => 0) "1").2.2 ++
        (draw_workspace_bg (draw_workspace_bg layerNoBgs (fun _ => 0) "1").1
          (draw_workspace_bg layerNoBgs (fun _ => 0) "1").2.1 "1").2.2) = 0 := by
      decide
    omega
  · decide

/-- C2 as amended: on a configured layer, two consecutive draws with the
same workspace name perform at most one attach and one commit in total —
exactly one attach exactly when the name differed from the current
workspace and resolved to a wallpaper (exact key or `"_default"`) — and
the second call leaves the layer, every active-use counter and the
attached buffer exactly as the first call left them, performing no attach
or commit of its own. -/
theorem C2_draw_idempotent (layer : BackgroundLayer) (active : Nat → Nat)
    (workspace_name : String)
    (hconf : layer.configured = true) :
    (draw_workspace_bg (draw_workspace_bg layer active workspace_name).1
        (draw_workspace_bg layer active workspace_name).2.1 workspace_name).1 =
      (draw_workspace_bg layer active workspace_name).1 ∧
    (draw_workspace_bg (draw_workspace_bg layer active workspace_name).1
        (draw_workspace_bg layer active workspace_name).2.1 workspace_name).2.1 =
      (draw_workspace_bg layer active workspace_name).2.1 ∧
    countAttaches (draw_workspace_bg (draw_workspace_bg layer active workspace_name).1
        (draw_workspace_bg layer active workspace_name).2.1 workspace_name).2.2 = 0 ∧
    countCommits (draw_workspace_bg (draw_workspace_bg layer active workspace_name).1
        (draw_workspace_bg layer active workspace_name).2.1 workspace_name).2.2 = 0 ∧
    countAttaches ((draw_workspace_bg layer active workspace_name).2.2 ++
        (draw_workspace_bg (draw_workspace_bg layer active workspace_name).1
          (draw_workspace_bg layer active workspace_name).2.1 workspace_name).2.2) ≤ 1 ∧
    countCommits ((draw_workspace_bg layer active workspace_name).2.2 ++
        (draw_workspace_bg (draw_workspace_bg layer active workspace_name).1
          (draw_workspace_bg layer active workspace_name).2.1 workspace_name).2.2) ≤ 1 ∧
    (countAttaches ((draw_workspace_bg layer active workspace_name).2.2 ++
        (draw_workspace_bg (draw_workspace_bg layer active workspace_name).1
          (draw_workspace_bg layer active workspace_name).2.1 workspace_name).2.2) = 1 ↔
      layer.current_workspace ≠ some workspace_name ∧
      ((layer.workspace_backgrounds.find?
          (fun b => b.workspace_name == workspace_name)).orElse
        (fun _ => layer.workspace_backgrounds.find?
          (fun b => b.workspace_name == "_default"))) ≠ none) := by
  by_cases hcur : layer.current_workspace = some workspace_name
  · have hbeq : (layer.current_workspace == some workspace_name) = true := by
      simpa using hcur
    simp [draw_workspace_bg, hconf, hbeq, countAttaches, countCommits, hcur]
  · have hbeq : (layer.current_workspace == some workspace_name) = false := by
      simpa using hcur
    rcases hres : (layer.workspace_backgrounds.find?
        (fun b => b.workspace_name == workspace_name)).orElse
        (fun _ => layer.workspace_backgrounds.find?
          (fun b => b.workspace_name == "_default")) with _ | bg
    · simp [draw_workspace_bg, hconf, hbeq, hres, countAttaches, countCommits, hcur]
    · simp only [draw_workspace_bg, hconf, hbeq, hres, Bool.false_eq_true,
        if_false, if_neg]
      simp [countAttaches, countCommits, hcur, hres]

/-- Witness for C2 at a concrete input: a configured layer, with the
second of two draws for workspace "5" performing no attach. -/
theorem C2_draw_idempotent_witness :
    layerWithDefault.configured = true ∧
    countAttaches (draw_workspace_bg
        (draw_workspace_bg layerWithDefault (fun _ => 0) "5").1
        (draw_workspace_bg layerWithDefault (fun _ => 0) "5").2.1 "5").2.2 = 0 :=
  ⟨rfl, (C2_draw_idempotent layerWithDefault (fun _ => 0) "5" rfl).2.2.1⟩

/-- C10: `draw_workspace_bg` records the requested workspace name, not the
name of the wallpaper entry actually attached; two consecutive draws with
two different unknown names that both fall back to `"_default"` each
perform a full attach/damage/commit of the same `"_default"` buffer and
each increments its active-use count — the redundant-traffic skip applies
only when the requested names are equal. -/
theorem C10_draw_records_requested_name (layer : BackgroundLayer)
    (active : Nat → Nat) (n1 n2 : String) (bgd : WorkspaceBackground)
    (hconf : layer.configured = true)
    (h1 : layer.workspace_backgrounds.find?
      (fun b => b.workspace_name == n1) = none)
    (h2 : layer.workspace_backgrounds.find?
      (fun b => b.workspace_name == n2) = none)
    (hd : layer.workspace_backgrounds.find?
      (fun b => b.workspace_name == "_default") = some bgd)
    (hcur : layer.current_workspace ≠ some n1)
    (hne : n1 ≠ n2) :
    (draw_workspace_bg layer active n1).1.current_workspace = some n1 ∧
    (draw_workspace_bg layer active n1).2.2 =
      [DrawEffect.attach bgd.wallpaper.wl_buffer,
        DrawEffect.damage, DrawEffect.commit] ∧
    (draw_workspace_bg (draw_workspace_bg layer active n1).1
        (draw_workspace_bg layer active n1).2.1 n2).1.current_workspace = some n2 ∧
    (draw_workspace_bg (draw_workspace_bg layer active n1).1
        (draw_workspace_bg layer active n1).2.1 n2).2.2 =
      [DrawEffect.attach bgd.wallpaper.wl_buffer,
        DrawEffect.damage, DrawEffect.commit] ∧
    (draw_workspace_bg (draw_workspace_bg layer active n1).1
        (draw_workspace_bg layer active n1).2.1 n2).2.1
      bgd.wallpaper.wl_buffer = active bgd.wallpaper.wl_buffer + 2 := by
  have hbeq1 : (layer.current_workspace == some n1) = false := by simpa using hcur
  have hbeq2 : ((some n1 : Option String) == some n2) = false := by simpa using hne
  have hr1 : draw_workspace_bg layer active n1 =
      ({ layer with current_workspace := some n1 },
        Function.update active bgd.wallpaper.wl_buffer
          (active bgd.wallpaper.wl_buffer + 1),
        [DrawEffect.attach bgd.wallpaper.wl_buffer,
          DrawEffect.damage, DrawEffect.commit]) := by
    simp [draw_workspace_bg, hconf, hbeq1, h1, hd, Option.orElse]
  have hr2 : draw_workspace_bg (draw_workspace_bg layer active n1).1
      (draw_workspace_bg layer active n1).2.1 n2 =
      ({ layer with current_workspace := some n2 },
        Function.update
          (Function.update active bgd.wallpaper.wl_buffer
            (active bgd.wallpaper.wl_buffer + 1))
          bgd.wallpaper.wl_buffer
          (Function.update active bgd.wallpaper.wl_buffer
            (active bgd.wallpaper.wl_buffer + 1) bgd.wallpaper.wl_buffer + 1),
        [DrawEffect.attach bgd.wallpaper.wl_buffer,
          DrawEffect.damage, DrawEffect.commit]) := by
    rw [hr1]
    simp [draw_workspace_bg, hconf, hbeq2, h2, hd, Option.orElse]
  refine ⟨by rw [hr1], by rw [hr1], by rw [hr2], by rw [hr2], ?_⟩
  rw [hr2]
  simp

/-- Witness for C10 at a concrete input: names "5" and "6" both unknown on
a layer holding only "1" and "_default". -/
theorem C10_draw_records_requested_name_witness :
    (draw_workspace_bg layerWithDefault (fun _ => 0) "5").1.current_workspace
      = some "5" ∧
    (draw_workspace_bg (draw_workspace_bg layerWithDefault (fun _ => 0) "5").1
        (draw_workspace_bg layerWithDefault (fun _ => 0) "5").2.1
        "6").1.current_workspace = some "6" ∧
    (draw_workspace_bg (draw_workspace_bg layerWithDefault (fun _ => 0) "5").1
        (draw_workspace_bg layerWithDefault (fun _ => 0) "5").2.1 "6").2.1 11 =
      0 + 2 := by
  have h := C10_draw_records_requested_name layerWithDefault (fun _ => 0)
    "5" "6" ⟨"_default", ⟨11, "/w/_default.png", 101⟩⟩ (by decide) (by decide)
    (by decide) (by decide) (by decide) (by decide)
  exact ⟨h.1, h.2.2.1, h.2.2.2.2⟩

/-- Log lines of the `Dispatch<WlBuffer, ()>` release handler. -/
inductive ReleaseEffect where
  | debugReleased
  | errUnexpectedRelease
  | warnDestroyedBuffer
deriving DecidableEq

/-- Whether any workspace entry of any layer references the wallpaper with
buffer id `b` — the condition under which the release handler's scan over
`state.background_layers` finds a matching `wl_buffer`. -/
def wallpaperPresent (layers : List BackgroundLayer) (b : Nat) : Bool :=
  layers.any (fun l =>
    l.workspace_backgrounds.any (fun bg => bg.wallpaper.wl_buffer == b))

/-- The `Dispatch<WlBuffer, ()> for State` release handler
(src/wayland.rs lines 635-662): scan all layers for the first entry whose
wallpaper owns the released buffer; `checked_sub(1)` the shared active-use
counter, reporting the anomaly and leaving the counter untouched when it
is already zero; warn when no live wallpaper owns the buffer. Because the
counter is shared per wallpaper (keyed here by buffer id), only the
presence of a matching entry matters, not which entry is found first. -/
def wl_buffer_release (layers : List BackgroundLayer) (active : Nat → Nat)
    (b : Nat) : (Nat → Nat) × List ReleaseEffect :=
  if wallpaperPresent layers b then
    match active b with
    | 0 => (active, [ReleaseEffect.errUnexpectedRelease])
    | n + 1 => (Function.update active b n, [ReleaseEffect.debugReleased])
  else
    (active, [ReleaseEffect.warnDestroyedBuffer])

/-- An attach (from `draw_workspace_bg`, which increments the counter) or
an asynchronous compositor release notification, both on buffer id `b`. -/
inductive BufEvent where
  | attach (b : Nat)
  | release (b : Nat)
deriving DecidableEq

/-- Run a sequence of attach and release events against fixed layers,
returning the final active-use counters and the total number of anomaly
(`errUnexpectedRelease`) reports emitted. -/
def runBufferEvents (layers : List BackgroundLayer) (active : Nat → Nat) :
    List BufEvent → (Nat → Nat) × Nat
  | [] => (active, 0)
  | BufEvent.attach b :: rest =>
    runBufferEvents layers (Function.update active b (active b + 1)) rest
  | BufEvent.release b :: rest =>
    let step := wl_buffer_release layers active b
    let next := runBufferEvents layers step.1 rest
    (next.1, step.2.countP (fun e => e == ReleaseEffect.errUnexpectedRelease)
      + next.2)

/-- Spec-side count, following the spec's words: an excess release is a
release notification for a live wallpaper arriving when its active-use
count is already zero; such a release leaves the count at zero, any other
release decrements by one, an attach increments by one. -/
def specExcessReleases (layers : List BackgroundLayer) (active : Nat → Nat) :
    List BufEvent → Nat
  | [] => 0
  | BufEvent.attach b :: rest =>
    specExcessReleases layers (Function.update active b (active b + 1)) rest
  | BufEvent.release b :: rest =>
    if wallpaperPresent layers b then
      if active b = 0 then 1 + specExcessReleases layers active rest
      else specExcessReleases layers
        (Function.update active b (active b - 1)) rest
    else specExcessReleases layers active rest

/-- Helper: the handler's anomaly reports over any event sequence count
exactly the excess releases of the spec. -/
theorem anomalies_eq_excess (layers : List BackgroundLayer) :
    ∀ (events : List BufEvent) (active : Nat → Nat),
      (runBufferEvents layers active events).2 =
        specExcessReleases layers active events := by
  intro events
  induction events with
  | nil => intro active; rfl
  | cons e rest ih =>
    intro active
    cases e with
    | attach b => simpa [runBufferEvents, specExcessReleases] using ih _
    | release b =>
      by_cases hp : wallpaperPresent layers b = true
      · rcases h0 : active b with _ | n
        · simp [runBufferEvents, specExcessReleases, wl_buffer_release,
            hp, h0, ih]
        · simp [runBufferEvents, specExcessReleases, wl_buffer_release,
            hp, h0, ih]
      · simp [runBufferEvents, specExcessReleases, wl_buffer_release,
          hp, ih]

/-- C3: release notifications never corrupt the active-use bookkeeping:
for a live wallpaper, a release at count zero leaves every counter exactly
as it was and produces exactly the one anomaly report; a release at a
positive count decrements that wallpaper's counter by one with no anomaly
and touches no other counter; and over any sequence of attach and release
events the handler emits exactly one anomaly report per excess release. -/
theorem C3_release_never_negative (layers : List BackgroundLayer)
    (active : Nat → Nat) (b : Nat) (events : List BufEvent)
    (hpresent : wallpaperPresent layers b = true) :
    (active b = 0 → wl_buffer_release layers active b =
      (active, [ReleaseEffect.errUnexpectedRelease])) ∧
    (∀ n, active b = n + 1 → wl_buffer_release layers active b =
      (Function.update active b n, [ReleaseEffect.debugReleased])) ∧
    (∀ c, c ≠ b → (wl_buffer_release layers active b).1 c = active c) ∧
    (runBufferEvents layers active events).2 =
      specExcessReleases layers active events := by
  refine ⟨?_, ?_, ?_, anomalies_eq_excess layers events active⟩
  · intro h0
    simp [wl_buffer_release, hpresent, h0]
  · intro n hn
    simp [wl_buffer_release, hpresent, hn]
  · intro c hc
    rcases h0 : active b with _ | n
    · simp [wl_buffer_release, hpresent, h0]
    · simp [wl_buffer_release, hpresent, h0, Function.update_noteq hc]

/-- Witness for C3 at a concrete input: buffer id 10 is live on the sample
layer; feeding one attach and then two releases leaves the count at zero
with exactly one anomaly report. -/
theorem C3_release_never_negative_witness :
    wallpaperPresent [layerWithDefault] 10 = true ∧
    wl_buffer_release [layerWithDefault] (fun _ => 0) 10 =
      ((fun _ => 0), [ReleaseEffect.errUnexpectedRelease]) ∧
    (runBufferEvents [layerWithDefault] (fun _ => 0)
      [BufEvent.attach 10, BufEvent.release 10, BufEvent.release 10]).2 =
      specExcessReleases [layerWithDefault] (fun _ => 0)
        [BufEvent.attach 10, BufEvent.release 10, BufEvent.release 10] := by
  have h := C3_release_never_negative [layerWithDefault] (fun _ => 0) 10
    [BufEvent.attach 10, BufEvent.release 10, BufEvent.release 10] (by decide)
  exact ⟨by decide, h.1 rfl, h.2.2.2⟩

/-- A wallpaper file discovered during population of a new output: the
record consumed by the dedup searches, with exactly the fields
`find_equal_wallpaper`, `find_equal_output_wallpaper` and the population
loop in `new_output` read (src/wayland.rs). -/
structure WallpaperFile where
  workspace : String
  path : String
  canon_path : String
  canon_modified : Nat
deriving DecidableEq

/-- The dedup criterion: canonical path and modification time match. -/
def sameFile (bg : WorkspaceBackground) (f : WallpaperFile) : Prop :=
  bg.wallpaper.canon_modified = f.canon_modified ∧
  bg.wallpaper.canon_path = f.canon_path

instance (bg : WorkspaceBackground) (f : WallpaperFile) :
    Decidable (sameFile bg f) := by
  unfold sameFile; infer_instance

/-- `find_equal_output_wallpaper` (src/wayland.rs lines 783-797): scan the
workspace backgrounds already built for the same output in the current
population pass, returning the first wallpaper whose canonical path and
modification time match the file. -/
def find_equal_output_wallpaper :
    List WorkspaceBackground → WallpaperFile → Option Wallpaper
  | [], _ => none
  | bg :: rest, f =>
    if bg.wallpaper.canon_modified == f.canon_modified &&
        bg.wallpaper.canon_path == f.canon_path then
      some bg.wallpaper
    else
      find_equal_output_wallpaper rest f

/-- `find_equal_wallpaper` (src/wayland.rs lines 757-781): scan every
existing layer whose target width, height and transform equal the new
output's, and inside each such layer run the same canonical-path and
modification-time scan as `find_equal_output_wallpaper` (the Rust inner
loop is the identical scan, reused here). -/
def find_equal_wallpaper :
    List BackgroundLayer → Int → Int → Transform → WallpaperFile →
    Option Wallpaper
  | [], _, _, _, _ => none
  | l :: rest, w, h, t, f =>
    if l.width == w && l.height == h && l.transform == t then
      match find_equal_output_wallpaper l.workspace_backgrounds f with
      | some wp => some wp
      | none => find_equal_wallpaper rest w h t f
    else
      find_equal_wallpaper rest w h t f

/-- Outcome of the per-file reuse decision in `new_output`'s population
loop (src/wayland.rs lines 303-327). -/
inductive ReuseDecision where
  | reuseSame (wp : Wallpaper)
  | reuseCross (wp : Wallpaper)
  | fresh
deriving DecidableEq

/-- The reuse decision taken for one wallpaper file during population:
first the same-output pass, then the cross-output pass, else decode fresh
(src/wayland.rs lines 303-327). -/
def reuse_decision (wbs : List WorkspaceBackground)
    (layers : List BackgroundLayer) (w h : Int) (t : Transform)
    (f : WallpaperFile) : ReuseDecision :=
  match find_equal_output_wallpaper wbs f with
  | some wp => ReuseDecision.reuseSame wp
  | none =>
    match find_equal_wallpaper layers w h t f with
    | some wp => ReuseDecision.reuseCross wp
    | none => ReuseDecision.fresh

/-- Helper: the same-output scan misses exactly when no entry matches. -/
theorem find_equal_output_wallpaper_eq_none
    (wbs : List WorkspaceBackground) (f : WallpaperFile) :
    find_equal_output_wallpaper wbs f = none ↔
      ∀ bg ∈ wbs, ¬ sameFile bg f := by
  induction wbs with
  | nil => simp [find_equal_output_wallpaper]
  | cons bg rest ih =>
    by_cases h : bg.wallpaper.canon_modified = f.canon_modified ∧
        bg.wallpaper.canon_path = f.canon_path
    · simp [find_equal_output_wallpaper, h.1, h.2, sameFile]
    · have hb : (bg.wallpaper.canon_modified == f.canon_modified &&
          bg.wallpaper.canon_path == f.canon_path) = false := by
        simpa [Bool.and_eq_true, beq_iff_eq, Decidable.not_and_iff_or_not] using h
      simp only [find_equal_output_wallpaper, hb, Bool.false_eq_true, if_false]
      rw [ih]
      constructor
      · intro hall
        intro x hx
        rcases List.mem_cons.mp hx with rfl | hx2
        · simpa [sameFile] using h
        · exact hall x hx2
      · intro hall x hx
        exact hall x (List.mem_cons_of_mem _ hx)

/-- Helper: a same-output hit returns a matching entry's wallpaper. -/
theorem find_equal_output_wallpaper_eq_some
    (wbs : List WorkspaceBackground) (f : WallpaperFile) (wp : Wallpaper)
    (hfind : find_equal_output_wallpaper wbs f = some wp) :
    ∃ bg ∈ wbs, bg.wallpaper = wp ∧ sameFile bg f := by
  induction wbs with
  | nil => simp [find_equal_output_wallpaper] at hfind
  | cons bg rest ih =>
    by_cases h : (bg.wallpaper.canon_modified == f.canon_modified &&
        bg.wallpaper.canon_path == f.canon_path) = true
    · refine ⟨bg, List.mem_cons_self _ _, ?_, ?_⟩
      · simpa [find_equal_output_wallpaper, h] using hfind
      · simpa [sameFile, Bool.and_eq_true, beq_iff_eq] using h
    · rw [find_equal_output_wallpaper, if_neg h] at hfind
      obtain ⟨x, hx, hrest⟩ := ih hfind
      exact ⟨x, List.mem_cons_of_mem _ hx, hrest⟩

/-- Helper: the cross-output scan misses exactly when no entry of any
geometry-matching layer matches the file. -/
theorem find_equal_wallpaper_eq_none (layers : List BackgroundLayer)
    (w h : Int) (t : Transform) (f : WallpaperFile) :
    find_equal_wallpaper layers w h t f = none ↔
      ∀ l ∈ layers, (l.width = w ∧ l.height = h ∧ l.transform = t) →
        ∀ bg ∈ l.workspace_backgrounds, ¬ sameFile bg f := by
  induction layers with
  | nil => simp [find_equal_wallpaper]
  | cons l rest ih =>
    by_cases hdim : l.width = w ∧ l.height = h ∧ l.transform = t
    · have hb : (l.width == w && l.height == h && l.transform == t) = true := by
        simp [Bool.and_eq_true, beq_iff_eq, hdim.1, hdim.2.1, hdim.2.2]
      rw [find_equal_wallpaper, if_pos hb]
      rcases hin : find_equal_output_wallpaper l.workspace_backgrounds f with _ | wp
      · rw [ih]
        have hnone := (find_equal_output_wallpaper_eq_none
          l.workspace_backgrounds f).mp hin
        constructor
        · intro hall x hx
          rcases List.mem_cons.mp hx with rfl | hx2
          · intro _; exact hnone
          · exact hall x hx2
        · intro hall x hx
          exact hall x (List.mem_cons_of_mem _ hx)
      · refine iff_of_false (by simp) ?_
        intro hall
        obtain ⟨bg, hbg, _, hsame⟩ :=
          find_equal_output_wallpaper_eq_some l.workspace_backgrounds f wp hin
        exact hall l (List.mem_cons_self _ _) hdim bg hbg hsame
    · have hb : (l.width == w && l.height == h && l.transform == t) = false := by
        rcases Decidable.not_and_iff_or_not.mp hdim with h1 | h23
        · simp [Bool.and_eq_true, beq_iff_eq, h1]
        · rcases Decidable.not_and_iff_or_not.mp h23 with h2 | h3
          · simp [Bool.and_eq_true, beq_iff_eq, h2]
          · simp [Bool.and_eq_true, beq_iff_eq, h3]
      rw [find_equal_wallpaper, if_neg (by simp [hb])]
      rw [ih]
      constructor
      · intro hall x hx
        rcases List.mem_cons.mp hx with rfl | hx2
        · intro hd; exact absurd hd hdim
        · exact hall x hx2
      · intro hall x hx
        exact hall x (List.mem_cons_of_mem _ hx)

/-- Helper: a cross-output hit returns a matching entry's wallpaper from a
layer of matching geometry. -/
theorem find_equal_wallpaper_eq_some (layers : List BackgroundLayer)
    (w h : Int) (t : Transform) (f : WallpaperFile) (wp : Wallpaper)
    (hfind : find_equal_wallpaper layers w h t f = some wp) :
    ∃ l ∈ layers, l.width = w ∧ l.height = h ∧ l.transform = t ∧
      ∃ bg ∈ l.workspace_backgrounds, bg.wallpaper = wp ∧ sameFile bg f := by
  induction layers with
  | nil => simp [find_equal_wallpaper] at hfind
  | cons l rest ih =>
    by_cases hb : (l.width == w && l.height == h && l.transform == t) = true
    · rw [find_equal_wallpaper, if_pos hb] at hfind
      have hdim : l.width = w ∧ l.height = h ∧ l.transform = t := by
        simpa [Bool.and_eq_true, beq_iff_eq, and_assoc] using hb
      split at hfind
      case _ wp2 hin =>
        have hw : wp2 = wp := by simpa using hfind
        rw [hw] at hin
        obtain ⟨bg, hbg, hbgw, hsame⟩ :=
          find_equal_output_wallpaper_eq_some l.workspace_backgrounds f wp hin
        exact ⟨l, List.mem_cons_self _ _, hdim.1, hdim.2.1, hdim.2.2,
          bg, hbg, hbgw, hsame⟩
      case _ hin =>
        obtain ⟨x, hx, hrest⟩ := ih hfind
        exact ⟨x, List.mem_cons_of_mem _ hx, hrest⟩
    · rw [find_equal_wallpaper, if_neg hb] at hfind
      obtain ⟨x, hx, hrest⟩ := ih hfind
      exact ⟨x, List.mem_cons_of_mem _ hx, hrest⟩

/-- Sample same-output pass state and wallpaper file for concrete runs:
the file's canonical path and modification time match the entry. -/
def wbsSample : List WorkspaceBackground := [⟨"1", ⟨10, "/w/a.png", 100⟩⟩]

/-- Sample wallpaper file whose canonical path/mtime match `wbsSample`. -/
def fileSample : WallpaperFile := ⟨"2", "/w/b.png", "/w/a.png", 100⟩

/-- C4: during population, a file reuses an existing decoded wallpaper
exactly when canonical path and modification time match an existing entry
— for cross-output reuse additionally the layer's width, height and
transform must match — the same-output pass compares only canonical path
and modification time, and it is searched before the cross-output pass. -/
theorem C4_dedup_reuse (wbs : List WorkspaceBackground)
    (layers : List BackgroundLayer) (w h : Int) (t : Transform)
    (f : WallpaperFile) :
    (reuse_decision wbs layers w h t f = ReuseDecision.fresh ↔
      (∀ bg ∈ wbs, ¬ sameFile bg f) ∧
      (∀ l ∈ layers, (l.width = w ∧ l.height = h ∧ l.transform = t) →
        ∀ bg ∈ l.workspace_backgrounds, ¬ sameFile bg f)) ∧
    ((∃ bg ∈ wbs, sameFile bg f) →
      ∃ wp, reuse_decision wbs layers w h t f = ReuseDecision.reuseSame wp) ∧
    (∀ wp, reuse_decision wbs layers w h t f = ReuseDecision.reuseSame wp →
      ∃ bg ∈ wbs, bg.wallpaper = wp ∧ sameFile bg f) ∧
    (∀ wp, reuse_decision wbs layers w h t f = ReuseDecision.reuseCross wp →
      (∀ bg ∈ wbs, ¬ sameFile bg f) ∧
      ∃ l ∈ layers, l.width = w ∧ l.height = h ∧ l.transform = t ∧
        ∃ bg ∈ l.workspace_backgrounds, bg.wallpaper = wp ∧ sameFile bg f) := by
  rcases hsame : find_equal_output_wallpaper wbs f with _ | wp0
  · have hnone := (find_equal_output_wallpaper_eq_none wbs f).mp hsame
    rcases hcross : find_equal_wallpaper layers w h t f with _ | wp1
    · have hd : reuse_decision wbs layers w h t f = ReuseDecision.fresh := by
        simp [reuse_decision, hsame, hcross]
      refine ⟨?_, ?_, ?_, ?_⟩
      · exact iff_of_true hd
          ⟨hnone, (find_equal_wallpaper_eq_none layers w h t f).mp hcross⟩
      · rintro ⟨bg, hbg, hs⟩
        exact absurd hs (hnone bg hbg)
      · intro wp heq
        rw [hd] at heq
        exact absurd heq (by simp)
      · intro wp heq
        rw [hd] at heq
        exact absurd heq (by simp)
    · have hd : reuse_decision wbs layers w h t f =
          ReuseDecision.reuseCross wp1 := by
        simp [reuse_decision, hsame, hcross]
      refine ⟨?_, ?_, ?_, ?_⟩
      · refine iff_of_false (by rw [hd]; simp) ?_
        rintro ⟨-, hall⟩
        obtain ⟨l, hl, h1, h2, h3, bg, hbg, -, hs⟩ :=
          find_equal_wallpaper_eq_some layers w h t f wp1 hcross
        exact hall l hl ⟨h1, h2, h3⟩ bg hbg hs
      · rintro ⟨bg, hbg, hs⟩
        exact absurd hs (hnone bg hbg)
      · intro wp heq
        rw [hd] at heq
        exact absurd heq (by simp)
      · intro wp heq
        rw [hd] at heq
        obtain rfl : wp1 = wp := by simpa using heq
        exact ⟨hnone, find_equal_wallpaper_eq_some layers w h t f wp1 hcross⟩
  · have hd : reuse_decision wbs layers w h t f =
        ReuseDecision.reuseSame wp0 := by
      simp [reuse_decision, hsame]
    obtain ⟨bg0, hbg0, hbg0w, hs0⟩ :=
      find_equal_output_wallpaper_eq_some wbs f wp0 hsame
    refine ⟨?_, ?_, ?_, ?_⟩
    · refine iff_of_false (by rw [hd]; simp) ?_
      rintro ⟨hall, -⟩
      exact hall bg0 hbg0 hs0
    · intro _
      exact ⟨wp0, hd⟩
    · intro wp heq
      rw [hd] at heq
      obtain rfl : wp0 = wp := by simpa using heq
      exact ⟨bg0, hbg0, hbg0w, hs0⟩
    · intro wp heq
      rw [hd] at heq
      exact absurd heq (by simp)

/-- Witness for C4 at a concrete input: a file whose canonical path and
modification time match an entry built for the same output is reused by
the same-output pass. -/
theorem C4_dedup_reuse_witness :
    ∃ wp, reuse_decision wbsSample [] 1920 1080 Transform.normal fileSample =
      ReuseDecision.reuseSame wp :=
  (C4_dedup_reuse wbsSample [] 1920 1080 Transform.normal fileSample).2.1
    ⟨⟨"1", ⟨10, "/w/a.png", 100⟩⟩, by decide, by decide⟩

/-- `Iterator::position` as used by `output_destroyed`
(src/wayland.rs line 556): index of the first element satisfying `p`. -/
def position (p : BackgroundLayer → Bool) : List BackgroundLayer → Option Nat
  | [] => none
  | x :: rest => if p x then some 0 else (position p rest).map (· + 1)

/-- `Vec::swap_remove` on the layer list: replace the element at `i` by
the last element and drop the last slot. -/
def swapRemove (l : List BackgroundLayer) (i : Nat) : List BackgroundLayer :=
  match l.getLast? with
  | none => []
  | some last => (l.set i last).dropLast

/-- `OutputHandler::output_destroyed` (src/wayland.rs lines 533-587):
find the layer of the destroyed output by name, `swap_remove` it, issue a
full visible-workspaces re-query through the compositor bridge, and drop
the removed layer. Dropping the layer drops its `Rc<Wallpaper>` handles;
per `Rc` semantics, a wallpaper is destroyed (shm unmapped, `wl_buffer`
destroyed by `impl Drop for Wallpaper`) exactly when no entry of any
remaining layer still references it. The result is the remaining layers,
whether the re-query was issued, and the buffer ids of the wallpapers
destroyed. -/
def output_destroyed (layers : List BackgroundLayer) (output_name : String) :
    List BackgroundLayer × Bool × List Nat :=
  match position (fun l => l.output_name == output_name) layers with
  | some i =>
    let removed := layers.getD i default
    let remaining := swapRemove layers i
    (remaining, true,
      ((removed.workspace_backgrounds.map
          (fun bg => bg.wallpaper.wl_buffer)).filter
        (fun b => !(wallpaperPresent remaining b))).dedup)
  | none => (layers, false, [])

/-- Helper: a successful `position` points inside the list at an element
satisfying the predicate. -/
theorem position_eq_some (p : BackgroundLayer → Bool) :
    ∀ (l : List BackgroundLayer) (i : Nat), position p l = some i →
      i < l.length ∧ p (l.getD i default) = true := by
  intro l
  induction l with
  | nil => intro i h; simp [position] at h
  | cons x rest ih =>
    intro i h
    by_cases hp : p x = true
    · have : i = 0 := by simpa [position, hp] using h.symm
      subst this
      simpa using hp
    · rw [position, if_neg hp] at h
      rcases hj : position p rest with _ | j
      · rw [hj] at h; simp at h
      · rw [hj] at h
        obtain rfl : j + 1 = i := by simpa using h
        obtain ⟨hlt, hpj⟩ := ih j hj
        exact ⟨by simpa using Nat.succ_lt_succ hlt, by simpa using hpj⟩

/-- C5: destroying an output removes its layer from the layer list, issues
a full visible-workspace re-query through the compositor bridge, and
destroys exactly those of the removed layer's wallpapers that no entry of
a remaining layer still references — a wallpaper still referenced by
another live output always survives. -/
theorem C5_output_destroyed (layers : List BackgroundLayer)
    (output_name : String) (i : Nat)
    (hfound : position (fun l => l.output_name == output_name) layers
      = some i) :
    (output_destroyed layers output_name).2.1 = true ∧
    (layers.getD i default).output_name = output_name ∧
    (output_destroyed layers output_name).1 = swapRemove layers i ∧
    (output_destroyed layers output_name).1.length + 1 = layers.length ∧
    (∀ b, wallpaperPresent (output_destroyed layers output_name).1 b = true →
      b ∉ (output_destroyed layers output_name).2.2) ∧
    (∀ b, b ∈ (output_destroyed layers output_name).2.2 ↔
      b ∈ (layers.getD i default).workspace_backgrounds.map
        (fun bg => bg.wallpaper.wl_buffer) ∧
      wallpaperPresent (output_destroyed layers output_name).1 b = false) := by
  obtain ⟨hlt, hname⟩ := position_eq_some _ layers i hfound
  have hne : layers ≠ [] := by
    intro hnil; rw [hnil] at hlt; simp at hlt
  have hmem : ∀ b, b ∈ (output_destroyed layers output_name).2.2 ↔
      b ∈ (layers.getD i default).workspace_backgrounds.map
        (fun bg => bg.wallpaper.wl_buffer) ∧
      wallpaperPresent (swapRemove layers i) b = false := by
    intro b
    simp only [output_destroyed, hfound]
    rw [List.mem_dedup, List.mem_filter]
    simp
  refine ⟨?_, ?_, ?_, ?_, ?_, ?_⟩
  · simp [output_destroyed, hfound]
  · simpa using hname
  · simp [output_destroyed, hfound]
  · have hlen : (swapRemove layers i).length + 1 = layers.length := by
      rcases hlast : layers.getLast? with _ | last
      · exact absurd (List.getLast?_eq_none_iff.mp hlast) hne
      · have hpos : 0 < layers.length := List.length_pos.mpr hne
        simp [swapRemove, hlast, List.length_dropLast]
        omega
    simpa [output_destroyed, hfound] using hlen
  · intro b hpres hmemb
    have := (hmem b).mp (by simpa [output_destroyed, hfound] using hmemb)
    rw [show (output_destroyed layers output_name).1 = swapRemove layers i by
      simp [output_destroyed, hfound]] at hpres
    rw [this.2] at hpres
    exact absurd hpres (by simp)
  · intro b
    rw [show (output_destroyed layers output_name).1 = swapRemove layers i by
      simp [output_destroyed, hfound]]
    exact hmem b

/-- Layer on output "A" referencing buffers 10 (shared) and 12 (unique). -/
def layerA : BackgroundLayer :=
  ⟨"A", 1920, 1080, true,
    [⟨"1", ⟨10, "/w/s.png", 100⟩⟩, ⟨"2", ⟨12, "/w/u.png", 102⟩⟩],
    none, Transform.normal⟩

/-- Layer on output "B" referencing the shared buffer 10. -/
def layerB : BackgroundLayer :=
  ⟨"B", 1920, 1080, true, [⟨"1", ⟨10, "/w/s.png", 100⟩⟩],
    none, Transform.normal⟩

/-- Witness for C5 at a concrete input: destroying output "A" re-queries
the bridge, keeps buffer 10 alive because output "B" still references it,
and destroys the unshared buffer 12. -/
theorem C5_output_destroyed_witness :
    (output_destroyed [layerA, layerB] "A").2.1 = true ∧
    10 ∉ (output_destroyed [layerA, layerB] "A").2.2 ∧
    12 ∈ (output_destroyed [layerA, layerB] "A").2.2 := by
  have h := C5_output_destroyed [layerA, layerB] "A" 0 (by decide)
  refine ⟨h.1, h.2.2.2.2.1 10 (by decide), ?_⟩
  exact (h.2.2.2.2.2 12).mpr ⟨by decide, by decide⟩

/-- `WorkspaceVisible` (src/compositors.rs lines 162-166). -/
structure WorkspaceVisible where
  output : String
  workspace_name : String
deriving DecidableEq

/-- Primitive actions on the shared channel/waker pair, in the order a
bridge sender performs them. -/
inductive ChanAction where
  | enq (w : WorkspaceVisible)
  | wake
deriving DecidableEq

/-- `EventSender::send` (src/compositors.rs lines 80-83): enqueue on the
channel, then wake the shared waker. -/
def eventSender_send (w : WorkspaceVisible) : List ChanAction :=
  [ChanAction.enq w, ChanAction.wake]

/-- A workspace as reported by the sway IPC `get_workspaces` call, with
the fields `SwayConnectionTask::request_visible_workspaces` reads. -/
structure SwayWorkspace where
  visible : Bool
  output : String
  name : String
deriving DecidableEq

/-- `SwayConnectionTask::request_visible_workspaces`
(src/compositors/sway.rs lines 47-63): enqueue one event per visible
workspace, then issue a single wake after the loop. -/
def sway_request_visible_workspaces (ws : List SwayWorkspace) :
    List ChanAction :=
  (ws.filter (fun w => w.visible)).map
    (fun w => ChanAction.enq ⟨w.output, w.name⟩) ++ [ChanAction.wake]

/-- Every enqueue in the trace is followed, strictly later, by a wake: at
the moment the consumer observes the wake, the item is already in the
channel. -/
def wakeCovered : List ChanAction → Bool
  | [] => true
  | ChanAction.enq _ :: rest =>
    rest.any (fun a => a == ChanAction.wake) && wakeCovered rest
  | ChanAction.wake :: rest => wakeCovered rest

/-- Number of enqueues in a trace. -/
def countEnqueues (tr : List ChanAction) : Nat :=
  tr.countP (fun a => match a with | ChanAction.enq _ => true | _ => false)

/-- Number of wakes in a trace. -/
def countWakes (tr : List ChanAction) : Nat :=
  tr.countP (fun a => a == ChanAction.wake)

/-- Helper: a trace of enqueues closed by one trailing wake is covered. -/
theorem wakeCovered_enqs_append_wake (l : List WorkspaceVisible) :
    wakeCovered (l.map ChanAction.enq ++ [ChanAction.wake]) = true := by
  induction l with
  | nil => rfl
  | cons w rest ih =>
    simp only [List.map_cons, List.cons_append, wakeCovered, Bool.and_eq_true]
    refine ⟨?_, ih⟩
    simp

/-- C6: for every event emitted by a compositor-bridge sender, the wake on
the shared wake descriptor is issued only after the corresponding item has
been enqueued on the channel — both for `EventSender::send` (one wake per
item) and for the sway batch request (one coalesced wake after all items,
several items per wake being permitted). -/
theorem C6_wake_after_enqueue :
    (∀ w, wakeCovered (eventSender_send w) = true) ∧
    (∀ ws, wakeCovered (sway_request_visible_workspaces ws) = true) ∧
    (∀ ws, countWakes (sway_request_visible_workspaces ws) = 1 ∧
      countEnqueues (sway_request_visible_workspaces ws) =
        (ws.filter (fun w => w.visible)).length) := by
  refine ⟨fun w => rfl, fun ws => ?_, fun ws => ⟨?_, ?_⟩⟩
  · simpa [sway_request_visible_workspaces] using
      wakeCovered_enqs_append_wake
        ((ws.filter (fun w => w.visible)).map (fun w => ⟨w.output, w.name⟩))
  · simp [sway_request_visible_workspaces, countWakes]
  · simp [sway_request_visible_workspaces, countEnqueues]

/-- Processing of one bridged event by the consumer
(src/main.rs lines 253-272): find the first layer whose output name
matches, draw on it in place, or log an unknown-output error. -/
def drawOnLayers (layers : List BackgroundLayer) (active : Nat → Nat)
    (w : WorkspaceVisible) :
    List BackgroundLayer × (Nat → Nat) × List DrawEffect :=
  match position (fun l => l.output_name == w.output) layers with
  | some i =>
    let r := draw_workspace_bg (layers.getD i default) active w.workspace_name
    (layers.set i r.1, r.2.1, r.2.2)
  | none => (layers, active, [DrawEffect.errUnknownOutput])

/-- `handle_sway_event` (src/main.rs lines 249-273): drain the channel to
exhaustion with `try_recv`, processing each event in queue order; the
final component counts the events processed. -/
def handle_sway_event :
    List BackgroundLayer → (Nat → Nat) → List WorkspaceVisible →
    List BackgroundLayer × (Nat → Nat) × List DrawEffect × Nat
  | layers, active, [] => (layers, active, [], 0)
  | layers, active, w :: rest =>
    let r := drawOnLayers layers active w
    let rr := handle_sway_event r.1 r.2.1 rest
    (rr.1, rr.2.1, r.2.2 ++ rr.2.2.1, rr.2.2.2 + 1)

/-- One iteration of the main loop's compositor-channel branch
(src/main.rs lines 184-187): `waker.read()` drains every pending wake
notification of the descriptor in one call, then `handle_sway_event`
drains the channel. -/
def wake_iteration (pendingWakes : Nat) (queue : List WorkspaceVisible)
    (layers : List BackgroundLayer) (active : Nat → Nat) :
    Nat × List WorkspaceVisible × List BackgroundLayer × (Nat → Nat) ×
      List DrawEffect :=
  let r := handle_sway_event layers active queue
  (pendingWakes - pendingWakes, [], r.1, r.2.1, r.2.2.1)

/-- Helper: the consumer processes a concatenated queue as the first part
followed by the second part from the resulting state, effects and counts
concatenated in order. -/
theorem handle_sway_event_append (q1 : List WorkspaceVisible) :
    ∀ (q2 : List WorkspaceVisible) (layers : List BackgroundLayer)
      (active : Nat → Nat),
      handle_sway_event layers active (q1 ++ q2) =
        ((handle_sway_event
            (handle_sway_event layers active q1).1
            (handle_sway_event layers active q1).2.1 q2).1,
          (handle_sway_event
            (handle_sway_event layers active q1).1
            (handle_sway_event layers active q1).2.1 q2).2.1,
          (handle_sway_event layers active q1).2.2.1 ++
            (handle_sway_event
              (handle_sway_event layers active q1).1
              (handle_sway_event layers active q1).2.1 q2).2.2.1,
          (handle_sway_event layers active q1).2.2.2 +
            (handle_sway_event
              (handle_sway_event layers active q1).1
              (handle_sway_event layers active q1).2.1 q2).2.2.2) := by
  induction q1 with
  | nil => intro q2 layers active; simp [handle_sway_event]
  | cons w rest ih =>
    intro q2 layers active
    simp only [List.cons_append, handle_sway_event, List.append_eq]
    rw [ih]
    simp only [Prod.mk.injEq]
    refine ⟨by trivial, by trivial, by simp, by omega⟩

/-- Helper: the number of events one channel drain processes equals the
queue length. -/
theorem handle_sway_event_count (q : List WorkspaceVisible) :
    ∀ (layers : List BackgroundLayer) (active : Nat → Nat),
      (handle_sway_event layers active q).2.2.2 = q.length := by
  induction q with
  | nil => intro layers active; rfl
  | cons w rest ih =>
    intro layers active
    simp [handle_sway_event, ih]

/-- C7: one iteration of the consumer's wake handling drains the wake
descriptor and processes every enqueued event: events are processed
sequentially in enqueue order (a concatenated queue is processed as its
first part, then its second part from the resulting state), the number of
events processed equals the queue length regardless of how many wakes were
pending, the queue ends empty and the wake descriptor ends drained. -/
theorem C7_drain_channel_after_wake :
    (∀ (q1 q2 : List WorkspaceVisible) (layers : List BackgroundLayer)
        (active : Nat → Nat),
      handle_sway_event layers active (q1 ++ q2) =
        ((handle_sway_event
            (handle_sway_event layers active q1).1
            (handle_sway_event layers active q1).2.1 q2).1,
          (handle_sway_event
            (handle_sway_event layers active q1).1
            (handle_sway_event layers active q1).2.1 q2).2.1,
          (handle_sway_event layers active q1).2.2.1 ++
            (handle_sway_event
              (handle_sway_event layers active q1).1
              (handle_sway_event layers active q1).2.1 q2).2.2.1,
          (handle_sway_event layers active q1).2.2.2 +
            (handle_sway_event
              (handle_sway_event layers active q1).1
              (handle_sway_event layers active q1).2.1 q2).2.2.2)) ∧
    (∀ (q : List WorkspaceVisible) (layers : List BackgroundLayer)
        (active : Nat → Nat),
      (handle_sway_event layers active q).2.2.2 = q.length) ∧
    (∀ (wakes wakes' : Nat) (q : List WorkspaceVisible)
        (layers : List BackgroundLayer) (active : Nat → Nat),
      wake_iteration wakes q layers active =
        wake_iteration wakes' q layers active) ∧
    (∀ (wakes : Nat) (q : List WorkspaceVisible)
        (layers : List BackgroundLayer) (active : Nat → Nat),
      (wake_iteration wakes q layers active).1 = 0 ∧
      (wake_iteration wakes q layers active).2.1 = []) := by
  refine ⟨fun q1 q2 layers active =>
      handle_sway_event_append q1 q2 layers active,
    fun q layers active => handle_sway_event_count q layers active,
    fun wakes wakes' q layers active => ?_, fun wakes q layers active => ?_⟩
  · simp [wake_iteration]
  · simp [wake_iteration]

/-- `usize::next_multiple_of` as used for the Bgr888 stride: if `n` is
already a multiple of `m`, `n` itself, else `n` rounded up to the next
multiple. -/
def next_multiple_of (n m : Nat) : Nat :=
  match n % m with
  | 0 => n
  | r => n + (m - r)

/-- The two destination pixel layouts the program selects between
(src/main.rs `State::pixel_format`). -/
inductive WlFormat where
  | xrgb8888
  | bgr888
deriving DecidableEq

/-- The row stride computed for a buffer of the given surface width
(src/wayland.rs lines 328-337 and src/image.rs lines 32-41): exactly
`width * 4` for Xrgb8888, and `width * 3` padded with
`next_multiple_of(4)` for the packed Bgr888 layout. -/
def stride_for (format : WlFormat) (width : Nat) : Nat :=
  match format with
  | WlFormat.xrgb8888 => width * 4
  | WlFormat.bgr888 => next_multiple_of (width * 3) 4

/-- C8 counterexample: at surface width 2 the Bgr888 stride is 8, which is
divisible by 4 but not by the 3-byte pixel size, refuting the claim that
the padded stride is divisible by both. -/
theorem C8_counterexample :
    0 < 2 ∧ stride_for WlFormat.bgr888 2 = 8 ∧
      ¬(3 ∣ stride_for WlFormat.bgr888 2) := by
  refine ⟨by decide, by decide, by decide⟩

/-- C8 as amended: for every positive surface width the Bgr888 stride is
at least `width * 3`, divisible by 4, and is the least such value below
`width * 3 + 4` (i.e. the packed row padded up to 4-byte alignment, not
to a multiple of the pixel size); the Xrgb8888 stride is exactly
`width * 4`. -/
theorem C8_stride_padding (width : Nat) (hw : 0 < width) :
    width * 3 ≤ stride_for WlFormat.bgr888 width ∧
    4 ∣ stride_for WlFormat.bgr888 width ∧
    stride_for WlFormat.bgr888 width < width * 3 + 4 ∧
    stride_for WlFormat.xrgb8888 width = width * 4 := by
  have heq : next_multiple_of (width * 3) 4 =
      if width * 3 % 4 = 0 then width * 3
      else width * 3 + (4 - width * 3 % 4) := by
    unfold next_multiple_of
    rcases h : width * 3 % 4 with _ | r
    · simp
    · rw [if_neg (by omega)]
      rfl
  have key : width * 3 ≤ next_multiple_of (width * 3) 4 ∧
      4 ∣ next_multiple_of (width * 3) 4 ∧
      next_multiple_of (width * 3) 4 < width * 3 + 4 := by
    rw [heq]
    by_cases h : width * 3 % 4 = 0
    · rw [if_pos h]
      exact ⟨Nat.le_refl _, Nat.dvd_of_mod_eq_zero (by omega), by omega⟩
    · rw [if_neg h]
      exact ⟨by omega, Nat.dvd_of_mod_eq_zero (by omega), by omega⟩
  exact ⟨key.1, key.2.1, key.2.2, rfl⟩

/-- Witness for C8 at a concrete input: width 5 gives Bgr888 stride 16. -/
theorem C8_stride_padding_witness :
    0 < 5 ∧
    (5 * 3 ≤ stride_for WlFormat.bgr888 5 ∧
      4 ∣ stride_for WlFormat.bgr888 5 ∧
      stride_for WlFormat.bgr888 5 < 5 * 3 + 4 ∧
      stride_for WlFormat.xrgb8888 5 = 5 * 4) :=
  ⟨by decide, C8_stride_padding 5 (by decide)⟩

/-- `Iterator::position` over bytes, as used twice by the hyprland event
socket loop (src/compositors/hyprland.rs lines 54 and 58). -/
def posOf (p : Nat → Bool) : List Nat → Option Nat
  | [] => none
  | x :: rest => if p x then some 0 else (posOf p rest).map (· + 1)

/-- Helper: a found position lies inside the list. -/
theorem posOf_lt (p : Nat → Bool) :
    ∀ (l : List Nat) (i : Nat), posOf p l = some i → i < l.length := by
  intro l
  induction l with
  | nil => intro i h; simp [posOf] at h
  | cons x rest ih =>
    intro i h
    by_cases hp : p x = true
    · have : i = 0 := by simpa [posOf, hp] using h.symm
      simp [this]
    · rw [posOf, if_neg hp] at h
      rcases hj : posOf p rest with _ | j
      · rw [hj] at h; simp at h
      · rw [hj] at h
        obtain rfl : j + 1 = i := by simpa using h
        have := ih j hj
        simp only [List.length_cons]
        omega

/-- One `name >> data \n` record of the hyprland event socket, as byte
lists (byte 62 is the greater-than sign, byte 10 the line feed). -/
structure HyprRecord where
  name : List Nat
  data : List Nat
deriving DecidableEq

/-- The inner parse loop of `HyprlandConnectionTask::subscribe_event_loop`
(src/compositors/hyprland.rs lines 52-89) on the readable region
`buf[parsed..filled]`: find the first 62 byte, take the event name before
it, skip two bytes, find the next 10 byte, take the event data before it,
and repeat on the remainder; stop (leaving the region from the last
complete record onward unconsumed) when either byte is missing. Returns
the records in order and the number of bytes consumed, or `none` for the
out-of-range slice panic the Rust code hits when the first 62 byte is the
region's last byte (`&unparsed[gt_pos+2..]` with `gt_pos + 2` past the
end). -/
def parseRecords (region : List Nat) : Option (List HyprRecord × Nat) :=
  match posOf (fun b => b == 62) region with
  | none => some ([], 0)
  | some gt =>
    if hlen : region.length < gt + 2 then none
    else
      match posOf (fun b => b == 10) (region.drop (gt + 2)) with
      | none => some ([], 0)
      | some lf =>
        match parseRecords ((region.drop (gt + 2)).drop (lf + 1)) with
        | none => none
        | some (recs, consumed) =>
          some (⟨region.take gt, (region.drop (gt + 2)).take lf⟩ :: recs,
            gt + 2 + (lf + 1) + consumed)
termination_by region.length
decreasing_by
  simp only [List.length_drop]
  omega

/-- The wire encoding of one record: `name >> data \n`. -/
def encodeRecord (r : HyprRecord) : List Nat :=
  r.name ++ [62, 62] ++ r.data ++ [10]

/-- The wire encoding of a whole stream of complete records. -/
def encodeRecords (rs : List HyprRecord) : List Nat :=
  (rs.map encodeRecord).flatten

/-- A record the framing can carry: no 62 byte in the name (the name scan
stops at the first one) and no 10 byte in the data (the data scan stops at
the first one). -/
def wfRecord (r : HyprRecord) : Prop :=
  (62 : Nat) ∉ r.name ∧ (10 : Nat) ∉ r.data

instance (r : HyprRecord) : Decidable (wfRecord r) := by
  unfold wfRecord; infer_instance

/-- The read buffer between two reads of the event-socket loop: `data` is
`buf[0..filled]` (both indices are 0/`filled` again at every read, since
each pass ends by either resetting them or compacting the leftover to the
front), `cap` is the allocation size `buf.len()`. -/
structure HyprBuf where
  data : List Nat
  cap : Nat
deriving DecidableEq

/-- Result of running the event-socket read loop over a finite stream:
either the records emitted plus undelivered/unparsed leftover bytes, or
the out-of-range slice panic. -/
inductive RunResult where
  | done (records : List HyprRecord) (leftover : List Nat)
  | panicked
deriving DecidableEq

/-- The read loop of `subscribe_event_loop`
(src/compositors/hyprland.rs lines 41-98) over a finite byte stream:
each iteration reads `min (requested size, free buffer space, bytes left)`
bytes into the buffer, doubles the allocation when the read fills it,
parses the readable region, and keeps the unconsumed leftover compacted at
the front (resetting the indices without any copy when the region was
fully drained). The run ends when the stream is exhausted (reporting any
leftover) or the requested-size list runs out. -/
def subscribe_event_loop_run (acc : List HyprRecord) (st : HyprBuf)
    (stream : List Nat) (sizes : List Nat) : RunResult :=
  match stream with
  | [] => RunResult.done acc st.data
  | _ :: _ =>
    match sizes with
    | [] => RunResult.done acc (st.data ++ stream)
    | s :: restSizes =>
      let k := min s (min (st.cap - st.data.length) stream.length)
      let filled := st.data ++ stream.take k
      let cap2 := if filled.length = st.cap then st.cap * 2 else st.cap
      match parseRecords filled with
      | none => RunResult.panicked
      | some (recs, consumed) =>
        subscribe_event_loop_run (acc ++ recs)
          ⟨filled.drop consumed, cap2⟩ (stream.drop k) restSizes

/-- Helper: a scan over bytes none of which match finds nothing. -/
theorem posOf_none_of_all (p : Nat → Bool) :
    ∀ (l : List Nat), (∀ x ∈ l, p x = false) → posOf p l = none := by
  intro l
  induction l with
  | nil => intro _; rfl
  | cons x rest ih =>
    intro h
    rw [posOf, if_neg (by simp [h x (List.mem_cons_self _ _)]),
      ih (fun y hy => h y (List.mem_cons_of_mem _ hy))]
    rfl

/-- Helper: the first match after a clean prefix is at the prefix length. -/
theorem posOf_append_hit (p : Nat → Bool) (l1 : List Nat) (b : Nat)
    (l2 : List Nat) (h1 : ∀ x ∈ l1, p x = false) (hb : p b = true) :
    posOf p (l1 ++ b :: l2) = some l1.length := by
  induction l1 with
  | nil => simp [posOf, hb]
  | cons x rest ih =>
    rw [List.cons_append, posOf,
      if_neg (by simp [h1 x (List.mem_cons_self _ _)]),
      ih (fun y hy => h1 y (List.mem_cons_of_mem _ hy))]
    rfl

/-- Helper: the empty region parses to no records. -/
theorem parseRecords_nil : parseRecords [] = some ([], 0) := by
  rw [parseRecords]
  rfl

/-- Helper: a region with no 62 byte parses to no records and consumes
nothing. -/
theorem parseRecords_no_gt (P : List Nat) (h : ∀ x ∈ P, (x == 62) = false) :
    parseRecords P = some ([], 0) := by
  rw [parseRecords, posOf_none_of_all _ P h]

/-- Helper: a region whose first 62 byte is its last byte panics: the
`gt_pos + 2` slice start is past the end. -/
theorem parseRecords_gt_at_end (name : List Nat) (h : (62 : Nat) ∉ name) :
    parseRecords (name ++ [62]) = none := by
  rw [parseRecords,
    posOf_append_hit _ name 62 [] (fun x hx => by
      simp [show x ≠ 62 from fun he => h (he ▸ hx)]) (by simp)]
  have hc : (name ++ [62]).length < name.length + 2 := by simp
  simp [hc]

/-- Helper: a region holding a clean name, the 62-62 delimiter and a data
fragment with no 10 byte yet parses to no records and consumes nothing. -/
theorem parseRecords_no_lf (name D : List Nat) (h62 : (62 : Nat) ∉ name)
    (h10 : (10 : Nat) ∉ D) :
    parseRecords (name ++ 62 :: 62 :: D) = some ([], 0) := by
  rw [parseRecords,
    posOf_append_hit _ name 62 (62 :: D) (fun x hx => by
      simp [show x ≠ 62 from fun he => h62 (he ▸ hx)]) (by simp)]
  have hc : ¬ (name ++ 62 :: 62 :: D).length < name.length + 2 := by
    simp
  have hdrop : (name ++ 62 :: 62 :: D).drop (name.length + 2) = D := by
    have hsplit : name ++ 62 :: 62 :: D = (name ++ [62, 62]) ++ D := by simp
    rw [hsplit, List.drop_left' (by simp)]
  simp only [hc, hdrop, dite_false]
  rw [posOf_none_of_all _ D (fun x hx => by
    simp [show x ≠ 10 from fun he => h10 (he ▸ hx)])]

/-- Helper: parsing a region that starts with one complete well-formed
record extracts exactly that record and continues on the remainder. -/
theorem parseRecords_step (r : HyprRecord) (rest : List Nat)
    (hwf : wfRecord r) :
    parseRecords (encodeRecord r ++ rest) =
      match parseRecords rest with
      | none => none
      | some (recs, c) =>
        some (r :: recs, (encodeRecord r).length + c) := by
  obtain ⟨h62, h10⟩ := hwf
  have hshape : encodeRecord r ++ rest =
      r.name ++ 62 :: 62 :: (r.data ++ 10 :: rest) := by
    simp [encodeRecord]
  rw [hshape, parseRecords,
    posOf_append_hit _ r.name 62 (62 :: (r.data ++ 10 :: rest)) (fun x hx => by
      simp [show x ≠ 62 from fun he => h62 (he ▸ hx)]) (by simp)]
  have hc : ¬ (r.name ++ 62 :: 62 :: (r.data ++ 10 :: rest)).length <
      r.name.length + 2 := by simp
  have hdrop : (r.name ++ 62 :: 62 :: (r.data ++ 10 :: rest)).drop
      (r.name.length + 2) = r.data ++ 10 :: rest := by
    have hsplit : r.name ++ 62 :: 62 :: (r.data ++ 10 :: rest) =
        (r.name ++ [62, 62]) ++ (r.data ++ 10 :: rest) := by simp
    rw [hsplit, List.drop_left' (by simp)]
  simp only [hc, hdrop, dite_false]
  rw [posOf_append_hit _ r.data 10 rest (fun x hx => by
    simp [show x ≠ 10 from fun he => h10 (he ▸ hx)]) (by simp)]
  have htake : (r.data ++ 10 :: rest).take r.data.length = r.data :=
    List.take_left r.data _
  have hdrop2 : (r.data ++ 10 :: rest).drop (r.data.length + 1) = rest := by
    have hsplit : r.data ++ 10 :: rest = (r.data ++ [10]) ++ rest := by simp
    rw [hsplit, List.drop_left' (by simp)]
  simp only [htake, hdrop2]
  rcases hp : parseRecords rest with _ | pr
  · rfl
  · obtain ⟨recs, c⟩ := pr
    have hlen : (encodeRecord r).length =
        r.name.length + 2 + (r.data.length + 1) := by
      simp [encodeRecord]
      omega
    simp [hlen]

/-- Helper: encoding distributes over appending record lists. -/
theorem encodeRecords_append (l1 l2 : List HyprRecord) :
    encodeRecords (l1 ++ l2) = encodeRecords l1 ++ encodeRecords l2 := by
  simp [encodeRecords]

/-- Helper: parsing a region that starts with the encoding of a list of
well-formed complete records extracts exactly those records, in order,
and continues on the remainder. -/
theorem parseRecords_encode_append (rs : List HyprRecord) :
    ∀ (tail : List Nat), (∀ r ∈ rs, wfRecord r) →
      parseRecords (encodeRecords rs ++ tail) =
        match parseRecords tail with
        | none => none
        | some (recs, c) =>
          some (rs ++ recs, (encodeRecords rs).length + c) := by
  induction rs with
  | nil =>
    intro tail _
    rcases hp : parseRecords tail with _ | pr
    · simpa [encodeRecords] using hp
    · obtain ⟨recs, c⟩ := pr
      simpa [encodeRecords] using hp
  | cons r rs' ih =>
    intro tail hwf
    have hre : encodeRecords (r :: rs') ++ tail =
        encodeRecord r ++ (encodeRecords rs' ++ tail) := by
      simp [encodeRecords]
    rw [hre, parseRecords_step r _ (hwf r (List.mem_cons_self _ _)),
      ih tail (fun x hx => hwf x (List.mem_cons_of_mem _ hx))]
    rcases hp : parseRecords tail with _ | pr
    · rfl
    · obtain ⟨recs, c⟩ := pr
      have hlen : (encodeRecords (r :: rs')).length =
          (encodeRecord r).length + (encodeRecords rs').length := by
        simp [encodeRecords]
      simp only [hlen, List.cons_append, Prod.mk.injEq, Option.some.injEq]
      exact ⟨by trivial, by omega⟩

/-- Helper: a strict prefix of one well-formed record's encoding parses to
no records with nothing consumed, except the name-plus-one-62 prefix,
which panics. -/
theorem parseRecords_incomplete (r : HyprRecord) (hwf : wfRecord r)
    (P : List Nat) (hpre : P <+: encodeRecord r)
    (hlt : P.length < (encodeRecord r).length) :
    (P = r.name ++ [62] → parseRecords P = none) ∧
    (P ≠ r.name ++ [62] → parseRecords P = some ([], 0)) := by
  obtain ⟨h62, h10⟩ := hwf
  have hPtake : P = (encodeRecord r).take P.length :=
    List.prefix_iff_eq_take.mp hpre
  have hlen : (encodeRecord r).length =
      r.name.length + 2 + r.data.length + 1 := by
    simp [encodeRecord]
    omega
  rcases Nat.lt_or_ge P.length (r.name.length + 1) with hn | hn
  · -- P is a prefix of the name: no 62 byte at all
    have hPname : P = r.name.take P.length := by
      have hshape : encodeRecord r = r.name ++ ([62, 62] ++ r.data ++ [10]) := by
        simp [encodeRecord]
      conv_lhs => rw [hPtake, hshape]
      rw [List.take_append_of_le_length (by omega)]
    constructor
    · intro heq
      exfalso
      have : P.length = r.name.length + 1 := by rw [heq]; simp
      omega
    · intro _
      refine parseRecords_no_gt P (fun x hx => ?_)
      have hxname : x ∈ r.name := by
        rw [hPname] at hx
        exact List.mem_of_mem_take hx
      simp [show x ≠ 62 from fun he => h62 (he ▸ hxname)]
  · rcases Nat.lt_or_ge P.length (r.name.length + 2) with hn2 | hn2
    · -- P is exactly the name plus one 62 byte: the panic case
      have hPeq : P = r.name ++ [62] := by
        have hP1 : P.length = r.name.length + 1 := by omega
        have hshape : encodeRecord r =
            (r.name ++ [62]) ++ (62 :: (r.data ++ [10])) := by
          simp [encodeRecord]
        conv_lhs => rw [hPtake, hshape]
        rw [hP1, List.take_append_of_le_length (by simp),
          List.take_of_length_le (by simp)]
      constructor
      · intro _
        rw [hPeq]
        exact parseRecords_gt_at_end r.name h62
      · intro hne
        exact absurd hPeq hne
    · -- P holds the full delimiter and part of the data: no 10 byte yet
      have hPeq : P = r.name ++ 62 :: 62 ::
          (r.data.take (P.length - (r.name.length + 2))) := by
        have hshape : encodeRecord r =
            (r.name ++ [62, 62]) ++ (r.data ++ [10]) := by
          simp [encodeRecord]
        conv_lhs => rw [hPtake, hshape]
        rw [List.take_append_eq_append_take,
          List.take_of_length_le (by simp; omega),
          List.take_append_of_le_length (by simp; omega)]
        simp
      constructor
      · intro heq
        exfalso
        have : P.length = r.name.length + 1 := by rw [heq]; simp
        omega
      · intro _
        rw [hPeq]
        refine parseRecords_no_lf r.name _ h62 (fun hmem => ?_)
        exact h10 (List.mem_of_mem_take hmem)

/-- Helper: the head of a dropped record list is the original list's
element at the drop index. -/
theorem getD_drop_zero :
    ∀ (l : List HyprRecord) (m : Nat), m < l.length →
      (l.drop m).getD 0 ⟨[], []⟩ = l.getD m ⟨[], []⟩ := by
  intro l
  induction l with
  | nil => intro m hm; simp at hm
  | cons x rest ih =>
    intro m hm
    cases m with
    | zero => simp
    | succ m' =>
      have hm' : m' < rest.length := by simpa using hm
      simpa using ih m' hm'

/-- Helper: a prefix of an encoded record stream is a whole number of
records followed by a strict prefix of the next record's encoding (or the
whole stream). -/
theorem encodeRecords_prefix_decompose (rs : List HyprRecord) :
    ∀ (F : List Nat), F <+: encodeRecords rs →
      F = encodeRecords rs ∨
      ∃ m P2, m < rs.length ∧ F = encodeRecords (rs.take m) ++ P2 ∧
        P2 <+: encodeRecord (rs.getD m ⟨[], []⟩) ∧
        P2.length < (encodeRecord (rs.getD m ⟨[], []⟩)).length := by
  induction rs with
  | nil =>
    intro F h
    left
    have : F <+: [] := by simpa [encodeRecords] using h
    simpa [encodeRecords] using List.prefix_nil.mp this
  | cons r rs' ih =>
    intro F h
    have hE : encodeRecords (r :: rs') = encodeRecord r ++ encodeRecords rs' := by
      simp [encodeRecords]
    rw [hE] at h
    rcases Nat.lt_or_ge F.length (encodeRecord r).length with hlt | hge
    · right
      refine ⟨0, F, by simp, by simp [encodeRecords], ?_, ?_⟩
      · have := List.prefix_of_prefix_length_le h
          (List.prefix_append (encodeRecord r) (encodeRecords rs'))
          (Nat.le_of_lt hlt)
        simpa using this
      · simpa using hlt
    · have hpre_r : encodeRecord r <+: F :=
        List.prefix_of_prefix_length_le
          (List.prefix_append (encodeRecord r) (encodeRecords rs')) h hge
      obtain ⟨F2, rfl⟩ := hpre_r
      have h2 : F2 <+: encodeRecords rs' := by
        obtain ⟨u, hu⟩ := h
        rw [List.append_assoc] at hu
        exact ⟨u, List.append_cancel_left hu⟩
      rcases ih F2 h2 with heq | ⟨m, P2, hm, hFdec, hP2pre, hP2lt⟩
      · left
        rw [hE, heq]
      · right
        refine ⟨m + 1, P2, by simpa using Nat.succ_lt_succ hm, ?_, ?_, ?_⟩
        · rw [List.take_succ_cons,
            show encodeRecords (r :: rs'.take m) =
              encodeRecord r ++ encodeRecords (rs'.take m) by
                simp [encodeRecords],
            List.append_assoc, ← hFdec]
        · simpa using hP2pre
        · simpa using hP2lt

/-- Helper: an indexed element (within bounds) is a member. -/
theorem getD_mem :
    ∀ (l : List HyprRecord) (m : Nat), m < l.length →
      l.getD m ⟨[], []⟩ ∈ l := by
  intro l
  induction l with
  | nil => intro m hm; simp at hm
  | cons x rest ih =>
    intro m hm
    cases m with
    | zero => simp
    | succ m' =>
      have hm' : m' < rest.length := by simpa using hm
      simpa using List.mem_cons_of_mem x (ih m' hm')

/-- Helper: with the stream exhausted the run reports the accumulated
records; under the pending-is-a-strict-partial-record invariant the
pending bytes are empty and the accumulated records are all of them. -/
theorem run_rest_nil (rs acc : List HyprRecord) (P : List Nat) (cap : Nat)
    (sizes : List Nat)
    (hsplit : P ++ [] = encodeRecords rs)
    (hnil : rs = [] → P = [])
    (hpart : rs ≠ [] →
      P.length < (encodeRecord (rs.getD 0 ⟨[], []⟩)).length) :
    subscribe_event_loop_run acc ⟨P, cap⟩ [] sizes =
      RunResult.done (acc ++ rs) [] := by
  cases rs with
  | nil =>
    have hP := hnil rfl
    subst hP
    simp [subscribe_event_loop_run]
  | cons r rs' =>
    exfalso
    have hPfull : P = encodeRecords (r :: rs') := by simpa using hsplit
    have hE : encodeRecords (r :: rs') =
        encodeRecord r ++ encodeRecords rs' := by
      simp [encodeRecords]
    have hge : (encodeRecord r).length ≤ P.length := by
      rw [hPfull, hE]
      simp
    have hlt := hpart (by simp)
    simp only [List.getD_cons_zero] at hlt
    omega

/-- Helper: over any finite stream that encodes a list of well-formed
complete records, delivered by positive-size reads at least as numerous as
the stream's bytes, the read loop either hits the slice panic or emits
exactly the encoded records, in order, with nothing left over. -/
theorem run_parses_all :
    ∀ (sizes : List Nat) (rs acc : List HyprRecord) (P rest : List Nat)
      (cap : Nat),
      (∀ r ∈ rs, wfRecord r) →
      (∀ s ∈ sizes, 1 ≤ s) →
      P ++ rest = encodeRecords rs →
      (rs = [] → P = []) →
      (rs ≠ [] → P <+: encodeRecord (rs.getD 0 ⟨[], []⟩) ∧
        P.length < (encodeRecord (rs.getD 0 ⟨[], []⟩)).length) →
      P.length < cap →
      rest.length ≤ sizes.length →
      subscribe_event_loop_run acc ⟨P, cap⟩ rest sizes =
        RunResult.panicked ∨
      subscribe_event_loop_run acc ⟨P, cap⟩ rest sizes =
        RunResult.done (acc ++ rs) [] := by
  intro sizes
  induction sizes with
  | nil =>
    intro rs acc P rest cap _ _ hsplit hnil hpart hcap hlen
    have hrest : rest = [] := by
      have h0 := hlen
      simp at h0
      exact h0
    subst hrest
    right
    exact run_rest_nil rs acc P cap [] hsplit hnil (fun h => (hpart h).2)
  | cons s sizes' ih =>
    intro rs acc P rest cap hwf hsz hsplit hnil hpart hcap hlen
    cases rest with
    | nil =>
      right
      exact run_rest_nil rs acc P cap (s :: sizes') hsplit hnil
        (fun h => (hpart h).2)
    | cons b rest2 =>
      have hs1 : 1 ≤ s := hsz s (List.mem_cons_self _ _)
      set k := min s (min (cap - P.length) (b :: rest2).length) with hk
      have hk1 : 1 ≤ k := by
        rw [hk]
        simp only [List.length_cons]
        omega
      have hstep : subscribe_event_loop_run acc ⟨P, cap⟩ (b :: rest2)
          (s :: sizes') =
          (match parseRecords (P ++ (b :: rest2).take k) with
          | none => RunResult.panicked
          | some (recs, consumed) =>
            subscribe_event_loop_run (acc ++ recs)
              ⟨(P ++ (b :: rest2).take k).drop consumed,
                if (P ++ (b :: rest2).take k).length = cap then cap * 2
                else cap⟩
              ((b :: rest2).drop k) sizes') := rfl
      rw [hstep]
      have hfill : (P ++ (b :: rest2).take k) ++ (b :: rest2).drop k =
          encodeRecords rs := by
        rw [List.append_assoc, List.take_append_drop]
        exact hsplit
      rcases encodeRecords_prefix_decompose rs _ ⟨_, hfill⟩
        with hfull | ⟨m, P2, hm, hdec, hP2pre, hP2lt⟩
      · -- the read completed the whole stream: everything parses
        have hparse2 : parseRecords (P ++ (b :: rest2).take k) =
            some (rs, (encodeRecords rs).length) := by
          rw [hfull]
          have h := parseRecords_encode_append rs [] hwf
          rw [parseRecords_nil] at h
          simpa using h
        rw [hparse2]
        dsimp only
        have hdrop_all : (P ++ (b :: rest2).take k).drop
            (encodeRecords rs).length = [] := by
          rw [hfull]
          exact List.drop_length _
        have hdrop_stream : (b :: rest2).drop k = [] := by
          have h0 : (P ++ (b :: rest2).take k) ++ (b :: rest2).drop k =
              (P ++ (b :: rest2).take k) ++ [] := by
            rw [List.append_nil, hfill, hfull]
          exact List.append_cancel_left h0
        right
        rw [hdrop_all, hdrop_stream]
        simp [subscribe_event_loop_run]
      · -- the read stopped inside record m
        have hwftake : ∀ x ∈ rs.take m, wfRecord x :=
          fun x hx => hwf x (List.mem_of_mem_take hx)
        have hwfm : wfRecord (rs.getD m ⟨[], []⟩) :=
          hwf _ (getD_mem rs m hm)
        by_cases hP2 : P2 = (rs.getD m ⟨[], []⟩).name ++ [62]
        · -- that leftover shape panics: the left disjunct
          have hpnone :=
            (parseRecords_incomplete _ hwfm P2 hP2pre hP2lt).1 hP2
          have hnone : parseRecords (P ++ (b :: rest2).take k) = none := by
            rw [hdec, parseRecords_encode_append (rs.take m) P2 hwftake,
              hpnone]
          rw [hnone]
          left
          rfl
        · have hpok :=
            (parseRecords_incomplete _ hwfm P2 hP2pre hP2lt).2 hP2
          have hparse2 : parseRecords (P ++ (b :: rest2).take k) =
              some (rs.take m, (encodeRecords (rs.take m)).length) := by
            rw [hdec, parseRecords_encode_append (rs.take m) P2 hwftake,
              hpok]
            simp
          rw [hparse2]
          dsimp only
          have hdropP2 : (P ++ (b :: rest2).take k).drop
              (encodeRecords (rs.take m)).length = P2 := by
            rw [hdec]
            exact List.drop_left _ _
          rw [hdropP2]
          have hne' : rs.drop m ≠ [] := by
            intro h0
            have := List.drop_eq_nil_iff_le.mp h0
            omega
          have hgd := getD_drop_zero rs m hm
          have hsplit' : P2 ++ (b :: rest2).drop k =
              encodeRecords (rs.drop m) := by
            have h1 : encodeRecords (rs.take m) ++
                (P2 ++ (b :: rest2).drop k) =
                encodeRecords (rs.take m) ++ encodeRecords (rs.drop m) := by
              rw [← List.append_assoc, ← hdec, hfill,
                ← encodeRecords_append, List.take_append_drop]
            exact List.append_cancel_left h1
          have hcap2 : P2.length <
              (if (P ++ (b :: rest2).take k).length = cap then cap * 2
                else cap) := by
            have hle : P2.length ≤ (P ++ (b :: rest2).take k).length := by
              rw [hdec]
              simp
            have hfl : (P ++ (b :: rest2).take k).length ≤ cap := by
              rw [hk] at hle ⊢
              simp only [List.length_append, List.length_take,
                List.length_cons] at hle ⊢
              omega
            by_cases hfc : (P ++ (b :: rest2).take k).length = cap
            · rw [if_pos hfc]
              omega
            · rw [if_neg hfc]
              omega
          have hlen' : ((b :: rest2).drop k).length ≤ sizes'.length := by
            simp only [List.length_drop, List.length_cons]
            have h2 : rest2.length + 1 ≤ sizes'.length + 1 := by
              simpa using hlen
            omega
          rcases ih (rs.drop m) (acc ++ rs.take m) P2 ((b :: rest2).drop k)
              (if (P ++ (b :: rest2).take k).length = cap then cap * 2
                else cap)
              (fun x hx => hwf x (List.mem_of_mem_drop hx))
              (fun t ht => hsz t (List.mem_cons_of_mem _ ht))
              hsplit' (fun h0 => absurd h0 hne')
              (fun _ => by rw [hgd]; exact ⟨hP2pre, hP2lt⟩)
              hcap2 hlen' with hres | hres
          · left
            exact hres
          · right
            rw [hres, List.append_assoc, List.take_append_drop]

/-- C9 counterexample: the stream `97 62 98 99 10` is the complete record
(name "a", data "bc") under the claim's single-62 `name>data\n` framing,
delivered in one read; the parser emits (name "a", data "c") — it always
skips two bytes after the first 62, so the record (a, bc) is never
extracted. -/
theorem C9_counterexample :
    subscribe_event_loop_run [] ⟨[], 2000⟩
        ([97] ++ [62] ++ [98, 99] ++ [10]) [5] =
      RunResult.done [⟨[97], [99]⟩] [] ∧
    (⟨[97], [99]⟩ : HyprRecord) ≠ ⟨[97], [98, 99]⟩ := by
  constructor
  · simp [subscribe_event_loop_run, parseRecords, posOf]
  · decide

/-- C9 as amended: records are framed `name>>data\n` (two 62 bytes, as on
the hyprland event socket), with no 62 byte in a name and no 10 byte in a
data field. For every stream of complete such records and every partition
of it into positive-size reads, at least as many reads being requested as
the stream has bytes, if the loop does not hit its out-of-range slice
panic (which it does exactly when some read ends one byte after a
record's first 62 byte), then it extracts each record exactly once and in
order across reads — growing the buffer when a read fills it and keeping
only leftover partial-record bytes, compacted to the front, between
reads. -/
theorem C9_hyprland_framing (records : List HyprRecord) (sizes : List Nat)
    (hwf : ∀ r ∈ records, wfRecord r)
    (hsz : ∀ s ∈ sizes, 1 ≤ s)
    (henough : (encodeRecords records).length ≤ sizes.length)
    (hnopanic : subscribe_event_loop_run [] ⟨[], 2000⟩
      (encodeRecords records) sizes ≠ RunResult.panicked) :
    subscribe_event_loop_run [] ⟨[], 2000⟩ (encodeRecords records) sizes =
      RunResult.done records [] := by
  rcases run_parses_all sizes records [] [] (encodeRecords records) 2000
      hwf hsz (by simp) (fun _ => rfl)
      (fun _ => ⟨List.nil_prefix, by simp [encodeRecord]⟩)
      (by simp) henough with hp | hd
  · exact absurd hp hnopanic
  · simpa using hd

/-- Witness for C9 at a concrete input: the single record
(name "a", data "b"), wire bytes `97 62 62 98 10`, delivered in reads of
3, 1 and 1 bytes (the remaining read requests go unused), is extracted
exactly once. -/
theorem C9_hyprland_framing_witness :
    subscribe_event_loop_run [] ⟨[], 2000⟩
        (encodeRecords [⟨[97], [98]⟩]) [3, 1, 1, 1, 1] =
      RunResult.done [⟨[97], [98]⟩] [] := by
  refine C9_hyprland_framing [⟨[97], [98]⟩] [3, 1, 1, 1, 1]
    (by decide) (by decide) (by decide) ?_
  simp [subscribe_event_loop_run, parseRecords, posOf, encodeRecords,
    encodeRecord]

end Multibg
